import Mathlib

/-!
Verification of the FlexiRoute dataset-conversion pipeline
(`scripts/convert_california.py`, `scripts/convert_london.py`).

The Python sources are shallowly embedded below: Python `int` becomes `Int`
(or `Nat` for quantities that are naturals by construction, such as minutes
of the fixed time grid and list indices), Python `float` becomes `ℚ`, the
global `random` module becomes an explicitly threaded abstract generator,
and each function is translated clause by clause.
-/

namespace FlexiRoute

/-- Rush hour definitions, minutes from midnight: `RUSH_HOURS` in both
conversion scripts: `[(7*60+30, 9*60+30), (16*60, 18*60+30)]`. -/
def RUSH_HOURS : List (Nat × Nat) := [(450, 570), (960, 1110)]

/-- Embedding of the `while time <= end: series.append(time); time += 30`
loop body of `generate_time_series`. -/
def rushLoop (stop : Nat) (t : Nat) : List Nat :=
  if _h : t ≤ stop then t :: rushLoop stop (t + 30) else []
termination_by stop + 1 - t
decreasing_by omega

/-- Embedding of `generate_time_series` (identical in both scripts):
start from `[0]` and, for each rush window, append the 30-minute loop. -/
def generate_time_series : List Nat :=
  0 :: RUSH_HOURS.flatMap (fun w => rushLoop w.2 w.1)

/-- `ARRIVAL_SERIES = generate_time_series()` in both scripts. -/
def ARRIVAL_SERIES : List Nat := generate_time_series

/-- `WIDTH_SERIES = [0]` in both scripts. -/
def WIDTH_SERIES : List Nat := [0]

lemma rushLoop_morning : rushLoop 570 450 = [450, 480, 510, 540, 570] := by
  rw [rushLoop, rushLoop, rushLoop, rushLoop, rushLoop, rushLoop]
  norm_num

lemma rushLoop_evening :
    rushLoop 1110 960 = [960, 990, 1020, 1050, 1080, 1110] := by
  rw [rushLoop, rushLoop, rushLoop, rushLoop, rushLoop, rushLoop, rushLoop]
  norm_num

lemma arrival_series_eq :
    ARRIVAL_SERIES =
      [0, 450, 480, 510, 540, 570, 960, 990, 1020, 1050, 1080, 1110] := by
  rw [ARRIVAL_SERIES, generate_time_series, RUSH_HOURS]
  simp [rushLoop_morning, rushLoop_evening]

/-- Spec-side description of the points contributed by one rush window:
every value `start, start+30, start+60, ...` that is `≤ end`. -/
def specWindowPoints (start stop : Nat) : List Nat :=
  (List.range ((stop - start) / 30 + 1)).map (fun k => start + 30 * k)

/-- C2: the time-grid builder, with the default rush windows [450,570] and
[960,1110], returns a sequence that starts at 0, is strictly increasing,
has exactly 12 elements, ends at 1110, and equals `[0]` followed by, for
each window in order, the multiples `start, start+30, ...` that are
`≤ end`. -/
theorem time_grid_contract :
    generate_time_series.head? = some 0 ∧
    generate_time_series.Pairwise (fun a b => a < b) ∧
    generate_time_series.length = 12 ∧
    generate_time_series.getLast? = some 1110 ∧
    generate_time_series =
      0 :: RUSH_HOURS.flatMap (fun w => specWindowPoints w.1 w.2) := by
  have h : generate_time_series =
      [0, 450, 480, 510, 540, 570, 960, 990, 1020, 1050, 1080, 1110] :=
    arrival_series_eq
  rw [h]
  refine ⟨rfl, by decide, rfl, rfl, ?_⟩
  rw [RUSH_HOURS]
  decide

/-! ### Rush-state scan and cost synthesis (`write_edges`, inner loop) -/

/-- California rush transition (`convert_california.py` lines 157-163):
`if rush_idx < len(RUSH_HOURS): if time == start: inside = True
elif time == end: inside = False; rush_idx += 1`. Returns the post-transition
`(rushIdx, insideRush)`. -/
def calTransition (rushIdx : Nat) (insideRush : Bool) (time : Nat) :
    Nat × Bool :=
  if h : rushIdx < RUSH_HOURS.length then
    let w := RUSH_HOURS[rushIdx]
    if time = w.1 then (rushIdx, true)
    else if time = w.2 then (rushIdx + 1, false)
    else (rushIdx, insideRush)
  else (rushIdx, insideRush)

/-- London rush transition (`convert_london.py` lines 225-232):
`if time == start: inside = True elif time >= end: if inside: inside = False;
rush_idx += 1`. -/
def lonTransition (rushIdx : Nat) (insideRush : Bool) (time : Nat) :
    Nat × Bool :=
  if h : rushIdx < RUSH_HOURS.length then
    let w := RUSH_HOURS[rushIdx]
    if time = w.1 then (rushIdx, true)
    else if w.2 ≤ time then
      if insideRush then (rushIdx + 1, false) else (rushIdx, insideRush)
    else (rushIdx, insideRush)
  else (rushIdx, insideRush)

/-- Multiplier selection by position within the active window (identical in
both scripts): positions 0,4 draw from [0.10,0.15]; 1,3 from [0.20,0.25];
2 from [0.30,0.40]; otherwise the multiplier is 0 with no draw. `uniform`
models `random.uniform` threading the generator state `σ`. -/
def rushMultiplier {σ : Type} (uniform : σ → ℚ → ℚ → ℚ × σ)
    (position : Nat) (g : σ) : ℚ × σ :=
  if position = 0 ∨ position = 4 then uniform g (10/100) (15/100)
  else if position = 1 ∨ position = 3 then uniform g (20/100) (25/100)
  else if position = 2 then uniform g (30/100) (40/100)
  else (0, g)

/-- State carried through the per-edge cost loop: rush scan state, the
generator state, and the `travel_costs` accumulated so far. -/
structure SynthState (σ : Type) where
  rushIdx : Nat
  insideRush : Bool
  g : σ
  costs : List ℚ

/-- The per-edge cost loop of `write_edges`, parametric in the rush
transition (California and London differ only there).  For each time point:
apply the transition, set `temp_cost = base_cost`, and when inside rush add
`base_cost * multiplier` where the multiplier is drawn by position.  When
inside rush the scripts read `RUSH_HOURS[rush_idx]`; `insideRush = true`
implies `rushIdx < len(RUSH_HOURS)` for every reachable state, so the
`getD` default is never taken (Python would raise `IndexError`). -/
def costFold {σ : Type} (transition : Nat → Bool → Nat → Nat × Bool)
    (uniform : σ → ℚ → ℚ → ℚ × σ) (base : ℚ) (g0 : σ)
    (times : List Nat) : SynthState σ :=
  times.foldl
    (fun st time =>
      let s2 := transition st.rushIdx st.insideRush time
      if s2.2 then
        let start := (RUSH_HOURS.getD s2.1 (0, 0)).1
        let position := (time - start) / 30
        let d := rushMultiplier uniform position st.g
        ⟨s2.1, s2.2, d.2, st.costs ++ [base + base * d.1]⟩
      else ⟨s2.1, s2.2, st.g, st.costs ++ [base]⟩)
    ⟨0, false, g0, []⟩

/-- California travel-cost vector for one edge, over the arrival series. -/
def calTravelCosts {σ : Type} (uniform : σ → ℚ → ℚ → ℚ × σ)
    (base : ℚ) (g0 : σ) : List ℚ × σ :=
  let st := costFold calTransition uniform base g0 ARRIVAL_SERIES
  (st.costs, st.g)

/-- London travel-cost vector for one edge, over the arrival series. -/
def lonTravelCosts {σ : Type} (uniform : σ → ℚ → ℚ → ℚ × σ)
    (base : ℚ) (g0 : σ) : List ℚ × σ :=
  let st := costFold lonTransition uniform base g0 ARRIVAL_SERIES
  (st.costs, st.g)

/-- A draw oracle: the `n`-th call of `random.uniform(a, b)` returns
`u n a b`.  Instantiating the generator state with a call counter turns the
state-threaded loop into this oracle form. -/
def oracleUniform (u : Nat → ℚ → ℚ → ℚ) : Nat → ℚ → ℚ → ℚ × Nat :=
  fun n a b => (u n a b, n + 1)

/-- California cost vector with draws given by the oracle `u`. -/
def calCosts (u : Nat → ℚ → ℚ → ℚ) (base : ℚ) : List ℚ :=
  (calTravelCosts (oracleUniform u) base 0).1

/-- London cost vector with draws given by the oracle `u`. -/
def lonCosts (u : Nat → ℚ → ℚ → ℚ) (base : ℚ) : List ℚ :=
  (lonTravelCosts (oracleUniform u) base 0).1

lemma calCosts_eq (u : Nat → ℚ → ℚ → ℚ) (base : ℚ) :
    calCosts u base =
      [base,
       base + base * u 0 (10/100) (15/100),
       base + base * u 1 (20/100) (25/100),
       base + base * u 2 (30/100) (40/100),
       base + base * u 3 (20/100) (25/100),
       base,
       base + base * u 4 (10/100) (15/100),
       base + base * u 5 (20/100) (25/100),
       base + base * u 6 (30/100) (40/100),
       base + base * u 7 (20/100) (25/100),
       base + base * u 8 (10/100) (15/100),
       base] := by
  rw [calCosts, calTravelCosts, arrival_series_eq]
  simp [costFold, calTransition, rushMultiplier, oracleUniform, RUSH_HOURS]

lemma lonCosts_eq (u : Nat → ℚ → ℚ → ℚ) (base : ℚ) :
    lonCosts u base = calCosts u base := by
  rw [calCosts, calTravelCosts, lonCosts, lonTravelCosts, arrival_series_eq]
  simp [costFold, calTransition, lonTransition, rushMultiplier,
    oracleUniform, RUSH_HOURS]

/-- The sequence of post-transition `(rushIdx, insideRush)` states produced
by a rush scan over a time series. -/
def scanStates (transition : Nat → Bool → Nat → Nat × Bool)
    (times : List Nat) : List (Nat × Bool) :=
  (times.foldl
    (fun (st : (Nat × Bool) × List (Nat × Bool)) time =>
      let s2 := transition st.1.1 st.1.2 time
      (s2, st.2 ++ [s2]))
    ((0, false), [])).2

/-- The multiplier position selected at each time point (`none` outside
rush): determines which multiplier range is sampled there. -/
def scanPositions (transition : Nat → Bool → Nat → Nat × Bool)
    (times : List Nat) : List (Option Nat) :=
  (times.foldl
    (fun (st : (Nat × Bool) × List (Option Nat)) time =>
      let s2 := transition st.1.1 st.1.2 time
      let p : Option Nat :=
        if s2.2 then some ((time - (RUSH_HOURS.getD s2.1 (0, 0)).1) / 30)
        else none
      (s2, st.2 ++ [p]))
    ((0, false), [])).2

/-- C9: on the default arrival series with the default rush windows, the
California scan (exit on `time == end`) and the London scan (exit on
`time >= end`, only when inside) produce the same `(insideRush, rushIndex)`
pair at every point, and hence select the same multiplier-position range at
every point. -/
theorem rush_scans_equivalent :
    scanStates calTransition ARRIVAL_SERIES =
      scanStates lonTransition ARRIVAL_SERIES ∧
    scanPositions calTransition ARRIVAL_SERIES =
      scanPositions lonTransition ARRIVAL_SERIES := by
  rw [arrival_series_eq]
  exact ⟨by decide, by decide⟩

/-- Claim C1 as stated is false at the morning window end `t = 570`
(index 5 of the arrival series): the scan transitions to outside-rush at
the end boundary before the cost is computed, so the cost there is exactly
`baseCost` and carries no multiplier from [0.10, 0.15].  Witnessed with
`baseCost = 1` and every draw returning its lower bound. -/
theorem cal_end_sample_counterexample :
    (calCosts (fun _ a _ => a) 1).getD 5 0 = 1 ∧
    ¬ ∃ m : ℚ, 10/100 ≤ m ∧ m ≤ 15/100 ∧
        (calCosts (fun _ a _ => a) 1).getD 5 0 = 1 + 1 * m := by
  rw [calCosts_eq]
  refine ⟨rfl, ?_⟩
  rintro ⟨m, hm1, _, hm3⟩
  norm_num at hm3
  rw [hm3] at hm1
  norm_num at hm1

/-- C1 (amended): with every draw of `random.uniform(a,b)` landing in
`[a, b]`, each arrival point strictly inside a rush window receives
`cost = baseCost + baseCost * m` with `m` in the range determined by its
position `p = (t - windowStart) / 30` — [0.10,0.15] for p = 0 or 4,
[0.20,0.25] for p = 1 or 3, [0.30,0.40] for p = 2 — while at each window's
end point (t = 570 and t = 1110) the scan has already transitioned to
outside-rush and the cost equals `baseCost`, as it does at every point
outside the rush windows (t = 0). -/
theorem cal_rush_cost_model (base : ℚ) (u : Nat → ℚ → ℚ → ℚ)
    (hu : ∀ n a b, a ≤ b → a ≤ u n a b ∧ u n a b ≤ b) :
    (calCosts u base).length = ARRIVAL_SERIES.length ∧
    (calCosts u base).getD 0 0 = base ∧
    (∃ m, 10/100 ≤ m ∧ m ≤ 15/100 ∧
      (calCosts u base).getD 1 0 = base + base * m) ∧
    (∃ m, 20/100 ≤ m ∧ m ≤ 25/100 ∧
      (calCosts u base).getD 2 0 = base + base * m) ∧
    (∃ m, 30/100 ≤ m ∧ m ≤ 40/100 ∧
      (calCosts u base).getD 3 0 = base + base * m) ∧
    (∃ m, 20/100 ≤ m ∧ m ≤ 25/100 ∧
      (calCosts u base).getD 4 0 = base + base * m) ∧
    (calCosts u base).getD 5 0 = base ∧
    (∃ m, 10/100 ≤ m ∧ m ≤ 15/100 ∧
      (calCosts u base).getD 6 0 = base + base * m) ∧
    (∃ m, 20/100 ≤ m ∧ m ≤ 25/100 ∧
      (calCosts u base).getD 7 0 = base + base * m) ∧
    (∃ m, 30/100 ≤ m ∧ m ≤ 40/100 ∧
      (calCosts u base).getD 8 0 = base + base * m) ∧
    (∃ m, 20/100 ≤ m ∧ m ≤ 25/100 ∧
      (calCosts u base).getD 9 0 = base + base * m) ∧
    (∃ m, 10/100 ≤ m ∧ m ≤ 15/100 ∧
      (calCosts u base).getD 10 0 = base + base * m) ∧
    (calCosts u base).getD 11 0 = base := by
  rw [calCosts_eq, arrival_series_eq]
  refine ⟨rfl, rfl, ?_, ?_, ?_, ?_, rfl, ?_, ?_, ?_, ?_, ?_, rfl⟩
  · exact ⟨u 0 (10/100) (15/100), (hu 0 _ _ (by norm_num)).1,
      (hu 0 _ _ (by norm_num)).2, rfl⟩
  · exact ⟨u 1 (20/100) (25/100), (hu 1 _ _ (by norm_num)).1,
      (hu 1 _ _ (by norm_num)).2, rfl⟩
  · exact ⟨u 2 (30/100) (40/100), (hu 2 _ _ (by norm_num)).1,
      (hu 2 _ _ (by norm_num)).2, rfl⟩
  · exact ⟨u 3 (20/100) (25/100), (hu 3 _ _ (by norm_num)).1,
      (hu 3 _ _ (by norm_num)).2, rfl⟩
  · exact ⟨u 4 (10/100) (15/100), (hu 4 _ _ (by norm_num)).1,
      (hu 4 _ _ (by norm_num)).2, rfl⟩
  · exact ⟨u 5 (20/100) (25/100), (hu 5 _ _ (by norm_num)).1,
      (hu 5 _ _ (by norm_num)).2, rfl⟩
  · exact ⟨u 6 (30/100) (40/100), (hu 6 _ _ (by norm_num)).1,
      (hu 6 _ _ (by norm_num)).2, rfl⟩
  · exact ⟨u 7 (20/100) (25/100), (hu 7 _ _ (by norm_num)).1,
      (hu 7 _ _ (by norm_num)).2, rfl⟩
  · exact ⟨u 8 (10/100) (15/100), (hu 8 _ _ (by norm_num)).1,
      (hu 8 _ _ (by norm_num)).2, rfl⟩

/-- Witness for `cal_rush_cost_model` at `base = 1` with every draw
returning its lower bound. -/
theorem cal_rush_cost_model_witness :
    (calCosts (fun _ a _ => a) 1).getD 5 0 = 1 ∧
    (calCosts (fun _ a _ => a) 1).getD 11 0 = 1 := by
  have h := cal_rush_cost_model 1 (fun _ a _ => a)
    (fun _ a b hab => ⟨le_refl a, hab⟩)
  exact ⟨h.2.2.2.2.2.2.1, h.2.2.2.2.2.2.2.2.2.2.2.2⟩

/-- California free-flow base cost (`convert_california.py` lines 143-148):
a per-edge speed draw in mph, converted via `speed * 1.60934 / 60` to
km/min, and `base_cost = distance / speed_km_per_min`. -/
def calBaseCost (distance speed_mph : ℚ) : ℚ :=
  distance / (speed_mph * (160934/100000) / 60)

/-- London free-flow base cost (`convert_london.py` lines 211-216):
`edge_speed = speed * speed_multiplier`, `base_cost = distance /
edge_speed`, with the multiplier drawn from [0.8, 1.2]. -/
def lonBaseCost (distance speed speed_multiplier : ℚ) : ℚ :=
  distance / (speed * speed_multiplier)

lemma calCosts_floor (u : Nat → ℚ → ℚ → ℚ) (base : ℚ) (hbase : 0 ≤ base)
    (hu : ∀ n a b, a ≤ b → a ≤ u n a b ∧ u n a b ≤ b) :
    ∀ c ∈ calCosts u base, base ≤ c := by
  have key : ∀ (k : Nat) (a b : ℚ), 0 ≤ a → a ≤ b →
      base ≤ base + base * u k a b := by
    intro k a b ha hab
    have h1 := (hu k a b hab).1
    nlinarith
  rw [calCosts_eq]
  intro c hc
  simp only [List.mem_cons, List.not_mem_nil, or_false] at hc
  rcases hc with h|h|h|h|h|h|h|h|h|h|h|h <;> subst h
  · exact le_rfl
  · exact key 0 _ _ (by norm_num) (by norm_num)
  · exact key 1 _ _ (by norm_num) (by norm_num)
  · exact key 2 _ _ (by norm_num) (by norm_num)
  · exact key 3 _ _ (by norm_num) (by norm_num)
  · exact le_rfl
  · exact key 4 _ _ (by norm_num) (by norm_num)
  · exact key 5 _ _ (by norm_num) (by norm_num)
  · exact key 6 _ _ (by norm_num) (by norm_num)
  · exact key 7 _ _ (by norm_num) (by norm_num)
  · exact key 8 _ _ (by norm_num) (by norm_num)
  · exact le_rfl

/-- C6: for an edge with nonnegative distance, the synthesized cost vector
has exactly `len(ARRIVAL_SERIES)` entries and every entry is at least the
edge's computed free-flow base cost — in California (speed draw in
[20, 25] mph) and in London (speed multiplier in [0.8, 1.2] applied to a
positive configured speed). -/
theorem cost_vector_invariants
    (dist sp distL speedL mult : ℚ) (u v : Nat → ℚ → ℚ → ℚ)
    (hdist : 0 ≤ dist) (hsp1 : 20 ≤ sp) (_hsp2 : sp ≤ 25)
    (hdistL : 0 ≤ distL) (hspeedL : 0 < speedL)
    (hm1 : 8/10 ≤ mult) (_hm2 : mult ≤ 12/10)
    (hu : ∀ n a b, a ≤ b → a ≤ u n a b ∧ u n a b ≤ b)
    (hv : ∀ n a b, a ≤ b → a ≤ v n a b ∧ v n a b ≤ b) :
    (calCosts u (calBaseCost dist sp)).length = ARRIVAL_SERIES.length ∧
    (∀ c ∈ calCosts u (calBaseCost dist sp), calBaseCost dist sp ≤ c) ∧
    (lonCosts v (lonBaseCost distL speedL mult)).length =
      ARRIVAL_SERIES.length ∧
    (∀ c ∈ lonCosts v (lonBaseCost distL speedL mult),
      lonBaseCost distL speedL mult ≤ c) := by
  have hb1 : 0 ≤ calBaseCost dist sp := by
    rw [calBaseCost]
    apply div_nonneg hdist
    nlinarith
  have hb2 : 0 ≤ lonBaseCost distL speedL mult := by
    rw [lonBaseCost]
    apply div_nonneg hdistL
    nlinarith
  refine ⟨?_, calCosts_floor u _ hb1 hu, ?_, ?_⟩
  · rw [calCosts_eq, arrival_series_eq]
    rfl
  · rw [lonCosts_eq, calCosts_eq, arrival_series_eq]
    rfl
  · rw [lonCosts_eq]
    exact calCosts_floor v _ hb2 hv

/-- Witness for `cost_vector_invariants` at distance 1, speed 20 mph
(California) and distance 1, speed 100 m/min, multiplier 1 (London), with
every draw returning its lower bound. -/
theorem cost_vector_invariants_witness :
    (calCosts (fun _ a _ => a) (calBaseCost 1 20)).length =
      ARRIVAL_SERIES.length ∧
    (∀ c ∈ lonCosts (fun _ a _ => a) (lonBaseCost 1 100 1),
      lonBaseCost 1 100 1 ≤ c) := by
  have h := cost_vector_invariants 1 20 1 100 1
    (fun _ a _ => a) (fun _ a _ => a)
    (by norm_num) (by norm_num) (by norm_num) (by norm_num) (by norm_num)
    (by norm_num) (by norm_num)
    (fun _ a b hab => ⟨le_refl a, hab⟩) (fun _ a b hab => ⟨le_refl a, hab⟩)
  exact ⟨h.1, h.2.2.2⟩

/-! ### Width / clearway assignment (`write_edges`, width branch) -/

/-- Width assignment for one edge (`convert_california.py` lines 190-197,
`convert_london.py` lines 259-266): a clearway road gets `(base_width,
clearway_width)`, a regular road `(base_width, base_width)`.  The
configured `rush_width` argument of `write_edges` is never consulted by
this branch; it is kept here to mirror the source signature. -/
def edgeWidths (isClearway : Bool) (base_width _rush_width clearway_width : ℚ) :
    ℚ × ℚ :=
  if isClearway then (base_width, clearway_width)
  else (base_width, base_width)

/-- Claim C5 as stated quantifies over every configuration, but the scripts
emit the configured clearway width unconditionally: with configured base
width 3.5 and configured clearway width 2, a clearway-classified edge gets
`baseWidth = 3.5`, `rushWidth = 2`, violating `rushWidth ≥ baseWidth`. -/
theorem clearway_width_counterexample :
    (edgeWidths true (7/2) (5/2) 2).1 = 7/2 ∧
    (edgeWidths true (7/2) (5/2) 2).2 = 2 ∧
    ¬ (edgeWidths true (7/2) (5/2) 2).1 ≤ (edgeWidths true (7/2) (5/2) 2).2 := by
  refine ⟨rfl, rfl, ?_⟩
  rw [edgeWidths]
  norm_num

/-- C5 (amended): for every edge and every configuration, a
clearway-classified edge is emitted with `baseWidth` the configured base
width and `rushWidth` the configured clearway width, and a non-clearway
edge with `rushWidth = baseWidth`, both the configured base width — these
emission clauses hold unconditionally; `rushWidth ≥ baseWidth` holds for
every edge whenever the configured clearway width is at least the
configured base width (as in the default configuration, 4.5 ≥ 3.5). -/
theorem width_assignment (c : Bool) (bw rushw cw : ℚ) :
    edgeWidths true bw rushw cw = (bw, cw) ∧
    edgeWidths false bw rushw cw = (bw, bw) ∧
    (edgeWidths c bw rushw cw).1 = bw ∧
    (bw ≤ cw →
      (edgeWidths c bw rushw cw).1 ≤ (edgeWidths c bw rushw cw).2) := by
  refine ⟨rfl, rfl, ?_, ?_⟩
  · cases c <;> rfl
  · cases c
    · intro h
      simp [edgeWidths]
    · intro h
      simpa [edgeWidths] using h

/-- Witness for `width_assignment` at the default configuration: base
width 3.5, rush width 2.5, clearway width 4.5, on a clearway edge. -/
theorem width_assignment_witness :
    edgeWidths true (7/2) (5/2) (9/2) = (7/2, 9/2) ∧
    (edgeWidths true (7/2) (5/2) (9/2)).1 ≤
      (edgeWidths true (7/2) (5/2) (9/2)).2 := by
  have h := width_assignment true (7/2) (5/2) (9/2)
  exact ⟨h.1, h.2.2.2 (by norm_num)⟩

/-! ### Edge deduplication (`dedupe_edges`, identical in both scripts) -/

/-- `EdgeRecord` of both scripts: `src`, `dst` are Python ints, `distance`
a float. -/
structure EdgeRecord where
  src : Int
  dst : Int
  distance : ℚ
deriving DecidableEq

/-- The dict key of `dedupe_edges`: `key = (e.src, e.dst)`. -/
def edgeKey (e : EdgeRecord) : Int × Int := (e.src, e.dst)

/-- Python dict lookup on the association-list model (first match). -/
def dictFind (k : Int × Int) :
    List ((Int × Int) × EdgeRecord) → Option EdgeRecord
  | [] => none
  | p :: rest => if p.1 = k then some p.2 else dictFind k rest

/-- One iteration of the `dedupe_edges` loop: `if key not in dedup or
e.distance < dedup[key].distance: dedup[key] = e` — replace the entry in
place when the key exists and the new distance is strictly smaller, append
a fresh key at the end. -/
def dictInsert (m : List ((Int × Int) × EdgeRecord)) (e : EdgeRecord) :
    List ((Int × Int) × EdgeRecord) :=
  match m with
  | [] => [(edgeKey e, e)]
  | p :: rest =>
    if p.1 = edgeKey e then
      if e.distance < p.2.distance then (p.1, e) :: rest else p :: rest
    else p :: dictInsert rest e

/-- Lexicographic order on `(src, dst)` keys, as Python orders tuples in
`sorted(dedup.keys())`. -/
def keyLe (a b : Int × Int) : Prop := a.1 < b.1 ∨ (a.1 = b.1 ∧ a.2 ≤ b.2)

/-- Strict lexicographic order on keys. -/
def keyLt (a b : Int × Int) : Prop := a.1 < b.1 ∨ (a.1 = b.1 ∧ a.2 < b.2)

instance : DecidableRel keyLe := fun a b =>
  inferInstanceAs (Decidable (a.1 < b.1 ∨ (a.1 = b.1 ∧ a.2 ≤ b.2)))

instance : DecidableRel keyLt := fun a b =>
  inferInstanceAs (Decidable (a.1 < b.1 ∨ (a.1 = b.1 ∧ a.2 < b.2)))

instance : IsTotal (Int × Int) keyLe :=
  ⟨by intro a b; rw [keyLe, keyLe]; omega⟩

instance : IsTrans (Int × Int) keyLe :=
  ⟨by intro a b c hab hbc; rw [keyLe] at *; omega⟩

/-- Key order lifted to dict entries, used to sort the dict by key. -/
def entryLe (a b : (Int × Int) × EdgeRecord) : Prop := keyLe a.1 b.1

instance : DecidableRel entryLe := fun a b =>
  inferInstanceAs (Decidable (keyLe a.1 b.1))

instance : IsTotal ((Int × Int) × EdgeRecord) entryLe :=
  ⟨fun a b => IsTotal.total (r := keyLe) a.1 b.1⟩

instance : IsTrans ((Int × Int) × EdgeRecord) entryLe :=
  ⟨fun _ _ _ hab hbc => IsTrans.trans (r := keyLe) _ _ _ hab hbc⟩

/-- `dedupe_edges`: fold the dict update over the raw edge list, then emit
the kept values in ascending key order
(`return [dedup[k] for k in sorted(dedup.keys())]`). -/
def dedupe_edges (edges : List EdgeRecord) : List EdgeRecord :=
  ((edges.foldl dictInsert []).insertionSort entryLe).map Prod.snd

/-- Combination of a running representative with the next group member:
keep the incumbent unless the newcomer's distance is strictly smaller. -/
def bestOf (acc : Option EdgeRecord) (e : EdgeRecord) : Option EdgeRecord :=
  match acc with
  | none => some e
  | some b => if e.distance < b.distance then some e else some b

/-- The representative the claim promises for the `(src, dst)` group `k`:
the group member with the smallest distance, ties resolved in favour of the
first-encountered member. -/
def groupBest (k : Int × Int) (edges : List EdgeRecord) :
    Option EdgeRecord :=
  edges.foldl (fun acc e => if edgeKey e = k then bestOf acc e else acc) none

lemma dictFind_dictInsert (k : Int × Int) (e : EdgeRecord) :
    ∀ m, dictFind k (dictInsert m e) =
      if edgeKey e = k then bestOf (dictFind k m) e else dictFind k m := by
  intro m
  induction m with
  | nil =>
    by_cases h : edgeKey e = k <;> simp [dictInsert, dictFind, bestOf, h]
  | cons p rest ih =>
    by_cases hpe : p.1 = edgeKey e
    · by_cases hpk : p.1 = k
      · have hek : edgeKey e = k := hpe ▸ hpk
        by_cases hd : e.distance < p.2.distance <;>
          simp [dictInsert, dictFind, bestOf, hpe, hpk, hek, hd]
      · have hek : ¬ edgeKey e = k := fun h => hpk (hpe.trans h)
        by_cases hd : e.distance < p.2.distance <;>
          simp [dictInsert, dictFind, hpe, hpk, hek, hd]
    · by_cases hpk : p.1 = k
      · have hek : ¬ edgeKey e = k := fun h => hpe (hpk.trans h.symm)
        have hke : ¬ k = edgeKey e := fun h => hek h.symm
        simp [dictInsert, dictFind, hpe, hpk, hek, hke]
      · simp [dictInsert, dictFind, hpe, hpk, ih]

lemma dictFind_foldl (k : Int × Int) (edges : List EdgeRecord) :
    ∀ m, dictFind k (edges.foldl dictInsert m) =
      edges.foldl
        (fun acc e => if edgeKey e = k then bestOf acc e else acc)
        (dictFind k m) := by
  induction edges with
  | nil => intro m; rfl
  | cons e rest ih =>
    intro m
    simp only [List.foldl_cons, ih, dictFind_dictInsert]

lemma dictFind_groupBest (k : Int × Int) (edges : List EdgeRecord) :
    dictFind k (edges.foldl dictInsert []) = groupBest k edges := by
  rw [dictFind_foldl, groupBest, dictFind]

/-- Keys of the dict model, in insertion order. -/
def dictKeys (m : List ((Int × Int) × EdgeRecord)) : List (Int × Int) :=
  m.map Prod.fst

lemma dictFind_eq_none (k : Int × Int) :
    ∀ m, dictFind k m = none ↔ k ∉ dictKeys m := by
  intro m
  induction m with
  | nil => simp [dictFind, dictKeys]
  | cons p rest ih =>
    by_cases hpk : p.1 = k
    · simp [dictFind, dictKeys, hpk]
    · have hkp : ¬ k = p.1 := fun h => hpk h.symm
      simp only [dictFind, if_neg hpk, dictKeys, List.map_cons, List.mem_cons]
      simp only [dictKeys] at ih
      rw [ih]
      tauto

lemma dictKeys_dictInsert (m : List ((Int × Int) × EdgeRecord))
    (e : EdgeRecord) :
    dictKeys (dictInsert m e) =
      if dictFind (edgeKey e) m = none then dictKeys m ++ [edgeKey e]
      else dictKeys m := by
  induction m with
  | nil => simp [dictInsert, dictKeys, dictFind]
  | cons p rest ih =>
    by_cases hpe : p.1 = edgeKey e
    · by_cases hd : e.distance < p.2.distance <;>
        simp [dictInsert, dictKeys, dictFind, hpe, hd]
    · have hep : ¬ edgeKey e = p.1 := fun h => hpe h.symm
      simp only [dictInsert, if_neg hpe, dictKeys, List.map_cons, dictFind,
        if_neg hep]
      simp only [dictKeys] at ih
      by_cases hf : dictFind (edgeKey e) rest = none <;>
        simp [hf, ih, dictKeys]

lemma dictKeys_nodup_dictInsert (m : List ((Int × Int) × EdgeRecord))
    (e : EdgeRecord) (h : (dictKeys m).Nodup) :
    (dictKeys (dictInsert m e)).Nodup := by
  rw [dictKeys_dictInsert]
  by_cases hf : dictFind (edgeKey e) m = none
  · rw [if_pos hf]
    have hk : edgeKey e ∉ dictKeys m := (dictFind_eq_none _ _).1 hf
    simp [List.nodup_append, h, hk]
  · rw [if_neg hf]
    exact h

lemma dictKeys_nodup_foldl (edges : List EdgeRecord) :
    ∀ m, (dictKeys m).Nodup → (dictKeys (edges.foldl dictInsert m)).Nodup := by
  induction edges with
  | nil => intro m h; exact h
  | cons e rest ih =>
    intro m h
    exact ih _ (dictKeys_nodup_dictInsert m e h)

lemma entry_key_dictInsert (m : List ((Int × Int) × EdgeRecord))
    (e : EdgeRecord) (h : ∀ q ∈ m, edgeKey q.2 = q.1) :
    ∀ q ∈ dictInsert m e, edgeKey q.2 = q.1 := by
  induction m with
  | nil =>
    intro q hq
    simp [dictInsert] at hq
    rw [hq]
  | cons p rest ih =>
    intro q hq
    by_cases hpe : p.1 = edgeKey e
    · by_cases hd : e.distance < p.2.distance
      · simp [dictInsert, hpe, hd] at hq
        rcases hq with hq | hq
        · rw [hq]
        · exact h q (List.mem_cons_of_mem p hq)
      · simp [dictInsert, hpe, hd] at hq
        rcases hq with hq | hq
        · rw [hq]; exact h p (List.mem_cons_self p rest)
        · exact h q (List.mem_cons_of_mem p hq)
    · simp [dictInsert, hpe] at hq
      rcases hq with hq | hq
      · rw [hq]; exact h p (List.mem_cons_self p rest)
      · exact ih (fun q hq => h q (List.mem_cons_of_mem p hq)) q hq

lemma entry_key_foldl (edges : List EdgeRecord) :
    ∀ m, (∀ q ∈ m, edgeKey q.2 = q.1) →
      ∀ q ∈ edges.foldl dictInsert m, edgeKey q.2 = q.1 := by
  induction edges with
  | nil => intro m h; exact h
  | cons e rest ih =>
    intro m h
    exact ih _ (entry_key_dictInsert m e h)

lemma mem_iff_dictFind (p : (Int × Int) × EdgeRecord) :
    ∀ m, (dictKeys m).Nodup → (p ∈ m ↔ dictFind p.1 m = some p.2) := by
  intro m
  induction m with
  | nil => simp [dictFind]
  | cons q rest ih =>
    intro hnd
    have hnd' : (dictKeys rest).Nodup := by
      rw [dictKeys] at hnd ⊢
      exact (List.nodup_cons.1 hnd).2
    by_cases hqp : q.1 = p.1
    · have hq1 : q.1 ∉ dictKeys rest := by
        rw [dictKeys] at hnd
        exact (List.nodup_cons.1 hnd).1
      have hpnotin : p ∉ rest := by
        intro hp
        exact hq1 (hqp ▸ List.mem_map_of_mem Prod.fst hp)
      simp only [List.mem_cons, dictFind, if_pos hqp, Option.some_inj]
      constructor
      · rintro (h | h)
        · rw [h]
        · exact absurd h hpnotin
      · intro h
        left
        exact Prod.ext hqp.symm h.symm
    · simp only [List.mem_cons, dictFind, if_neg hqp]
      rw [← ih hnd']
      constructor
      · rintro (h | h)
        · exact absurd (congrArg Prod.fst h.symm) hqp
        · exact h
      · intro h
        right
        exact h

lemma groupBest_key (k : Int × Int) (edges : List EdgeRecord) :
    ∀ acc, (∀ b, acc = some b → edgeKey b = k) →
      ∀ e, edges.foldl
          (fun acc e => if edgeKey e = k then bestOf acc e else acc) acc =
        some e → edgeKey e = k := by
  induction edges with
  | nil =>
    intro acc hacc e he
    exact hacc e he
  | cons a rest ih =>
    intro acc hacc e he
    simp only [List.foldl_cons] at he
    by_cases ha : edgeKey a = k
    · refine ih _ ?_ e he
      intro b hb
      rw [if_pos ha] at hb
      rcases hacc0 : acc with _ | c
      · rw [hacc0] at hb
        simp [bestOf] at hb
        rw [← hb]; exact ha
      · rw [hacc0] at hb
        simp only [bestOf] at hb
        by_cases hd : a.distance < c.distance
        · rw [if_pos hd] at hb
          simp at hb
          rw [← hb]; exact ha
        · rw [if_neg hd] at hb
          simp at hb
          rw [← hb]; exact hacc c hacc0
    · rw [if_neg ha] at he
      exact ih acc hacc e he

lemma groupBest_fold_mem (k : Int × Int) :
    ∀ (l : List EdgeRecord) (acc : Option EdgeRecord) (e : EdgeRecord),
      l.foldl (fun acc e => if edgeKey e = k then bestOf acc e else acc) acc
        = some e →
      acc = some e ∨ e ∈ l := by
  intro l
  induction l with
  | nil =>
    intro acc e he
    exact Or.inl he
  | cons a rest ih =>
    intro acc e he
    simp only [List.foldl_cons] at he
    rcases ih _ e he with hstep | hmem
    · by_cases ha : edgeKey a = k
      · rw [if_pos ha] at hstep
        rcases hacc : acc with _ | c
        · rw [hacc] at hstep
          simp only [bestOf, Option.some_inj] at hstep
          exact Or.inr (List.mem_cons.2 (Or.inl hstep.symm))
        · rw [hacc] at hstep
          simp only [bestOf] at hstep
          by_cases hd : a.distance < c.distance
          · rw [if_pos hd] at hstep
            simp only [Option.some_inj] at hstep
            exact Or.inr (List.mem_cons.2 (Or.inl hstep.symm))
          · rw [if_neg hd] at hstep
            simp only [Option.some_inj] at hstep
            exact Or.inl (congrArg some hstep)
      · rw [if_neg ha] at hstep
        exact Or.inl hstep
    · exact Or.inr (List.mem_cons_of_mem a hmem)

lemma bestOf_isSome (acc : Option EdgeRecord) (a : EdgeRecord) :
    bestOf acc a ≠ none := by
  rcases acc with _ | c
  · simp [bestOf]
  · simp only [bestOf]
    by_cases hd : a.distance < c.distance
    · rw [if_pos hd]
      simp
    · rw [if_neg hd]
      simp

lemma bestOf_le_new (acc : Option EdgeRecord) (a b : EdgeRecord)
    (hb : bestOf acc a = some b) : b.distance ≤ a.distance := by
  rcases acc with _ | c
  · simp only [bestOf, Option.some_inj] at hb
    rw [← hb]
  · simp only [bestOf] at hb
    by_cases hd : a.distance < c.distance
    · rw [if_pos hd] at hb
      injection hb with hb
      rw [← hb]
    · rw [if_neg hd] at hb
      injection hb with hb
      rw [← hb]
      exact le_of_not_lt hd

lemma bestOf_le_old (a b c : EdgeRecord)
    (hb : bestOf (some c) a = some b) : b.distance ≤ c.distance := by
  simp only [bestOf] at hb
  by_cases hd : a.distance < c.distance
  · rw [if_pos hd] at hb
    injection hb with hb
    rw [← hb]
    exact le_of_lt hd
  · rw [if_neg hd] at hb
    injection hb with hb
    rw [← hb]

lemma groupBest_fold_min (k : Int × Int) :
    ∀ (l : List EdgeRecord) (acc : Option EdgeRecord) (e : EdgeRecord),
      l.foldl (fun acc e => if edgeKey e = k then bestOf acc e else acc) acc
        = some e →
      (∀ f ∈ l, edgeKey f = k → e.distance ≤ f.distance) ∧
      (∀ b, acc = some b → e.distance ≤ b.distance) := by
  intro l
  induction l with
  | nil =>
    intro acc e he
    refine ⟨(by intro f hf; cases hf), ?_⟩
    intro b hb
    simp only [List.foldl_nil] at he
    rw [he] at hb
    injection hb with hb
    exact le_of_eq (congrArg EdgeRecord.distance hb)
  | cons a rest ih =>
    intro acc e he
    simp only [List.foldl_cons] at he
    obtain ⟨hrest, hstep⟩ := ih _ e he
    constructor
    · intro f hf hfk
      rcases List.mem_cons.1 hf with hfa | hfr
      · subst hfa
        rcases hcase : (if edgeKey f = k then bestOf acc f else acc) with
          _ | b
        · rw [if_pos hfk] at hcase
          exact absurd hcase (bestOf_isSome acc f)
        · have h1 := hstep b hcase
          rw [if_pos hfk] at hcase
          exact le_trans h1 (bestOf_le_new acc f b hcase)
      · exact hrest f hfr hfk
    · intro b hb
      rcases hcase : (if edgeKey a = k then bestOf acc a else acc) with
        _ | c
      · exfalso
        by_cases ha : edgeKey a = k
        · rw [if_pos ha] at hcase
          exact bestOf_isSome acc a hcase
        · rw [if_neg ha, hb] at hcase
          cases hcase
      · have h1 := hstep c hcase
        by_cases ha : edgeKey a = k
        · rw [if_pos ha, hb] at hcase
          exact le_trans h1 (bestOf_le_old a c b hcase)
        · rw [if_neg ha, hb] at hcase
          injection hcase with hcase
          rw [hcase]
          exact h1

lemma keyLe_ne_keyLt {a b : Int × Int} (h1 : keyLe a b) (h2 : a ≠ b) :
    keyLt a b := by
  rw [keyLe] at h1
  rw [keyLt]
  rcases h1 with h | h
  · exact Or.inl h
  · refine Or.inr ⟨h.1, lt_of_le_of_ne h.2 fun h22 => h2 (Prod.ext h.1 h22)⟩

lemma dedupe_perm_dict (edges : List EdgeRecord) :
    List.Perm ((edges.foldl dictInsert []).insertionSort entryLe)
      (edges.foldl dictInsert []) :=
  List.perm_insertionSort entryLe _

lemma dedupe_sorted_facts (edges : List EdgeRecord) :
    (∀ q ∈ (edges.foldl dictInsert []).insertionSort entryLe,
      edgeKey q.2 = q.1) ∧
    ((edges.foldl dictInsert []).insertionSort entryLe).Sorted entryLe ∧
    (((edges.foldl dictInsert []).insertionSort entryLe).map
      Prod.fst).Nodup := by
  refine ⟨?_, List.sorted_insertionSort entryLe _, ?_⟩
  · intro q hq
    exact entry_key_foldl edges [] (by simp) q
      ((dedupe_perm_dict edges).subset hq)
  · have hnd : ((edges.foldl dictInsert []).map Prod.fst).Nodup :=
      dictKeys_nodup_foldl edges [] (by simp [dictKeys])
    exact (((dedupe_perm_dict edges).map Prod.fst).nodup_iff).2 hnd

/-- C3: deduplication returns a list that is strictly sorted by the
lexicographic `(src, dst)` key (hence unique by `(src, dst)`), whose
members are exactly the first-encountered smallest-distance representative
of each `(src, dst)` group; in particular the two raw edges
`(0, 1, distance 5.0)` and `(0, 1, distance 3.2)` collapse to the single
edge `(0, 1, distance 3.2)`. -/
theorem dedupe_contract (edges : List EdgeRecord) :
    (dedupe_edges edges).Pairwise
      (fun a b => keyLt (edgeKey a) (edgeKey b)) ∧
    (∀ e : EdgeRecord,
      e ∈ dedupe_edges edges ↔ groupBest (edgeKey e) edges = some e) ∧
    (∀ e ∈ dedupe_edges edges, e ∈ edges ∧
      ∀ f ∈ edges, edgeKey f = edgeKey e → e.distance ≤ f.distance) ∧
    dedupe_edges [⟨0, 1, 5⟩, ⟨0, 1, 16/5⟩] = [⟨0, 1, 16/5⟩] := by
  obtain ⟨hkey, hsorted, hnd⟩ := dedupe_sorted_facts edges
  have hnd0 : (dictKeys (edges.foldl dictInsert [])).Nodup :=
    dictKeys_nodup_foldl edges [] (by simp [dictKeys])
  have hiff : ∀ e : EdgeRecord,
      e ∈ dedupe_edges edges ↔ groupBest (edgeKey e) edges = some e := by
    intro e
    constructor
    · intro he
      rw [dedupe_edges] at he
      obtain ⟨p, hp, hpe⟩ := List.mem_map.1 he
      have hpd : p ∈ edges.foldl dictInsert [] :=
        (dedupe_perm_dict edges).subset hp
      have hfind := (mem_iff_dictFind p _ hnd0).1 hpd
      have h2 : edgeKey e = p.1 := by
        rw [← hpe]
        exact hkey p hp
      rw [← dictFind_groupBest, h2, ← hpe]
      exact hfind
    · intro hg
      rw [← dictFind_groupBest] at hg
      have hpd : (edgeKey e, e) ∈ edges.foldl dictInsert [] :=
        (mem_iff_dictFind (edgeKey e, e) _ hnd0).2 hg
      rw [dedupe_edges]
      exact List.mem_map.2
        ⟨(edgeKey e, e), (dedupe_perm_dict edges).mem_iff.2 hpd, rfl⟩
  refine ⟨?_, hiff, ?_, ?_⟩
  · rw [dedupe_edges, List.pairwise_map]
    have hne : ((edges.foldl dictInsert []).insertionSort entryLe).Pairwise
        (fun a b => a.1 ≠ b.1) := List.pairwise_map.1 hnd
    refine (hsorted.and hne).imp_of_mem ?_
    intro a b ha hb hab
    rw [hkey a ha, hkey b hb]
    exact keyLe_ne_keyLt hab.1 hab.2
  · intro e he
    have hg := (hiff e).1 he
    rw [groupBest] at hg
    have h1 := groupBest_fold_mem (edgeKey e) edges none e hg
    have h2 := (groupBest_fold_min (edgeKey e) edges none e hg).1
    rcases h1 with h | h
    · cases h
    · exact ⟨h, h2⟩
  · have h5 : ((16 : ℚ)/5) < 5 := by norm_num
    simp [dedupe_edges, dictInsert, edgeKey, h5, List.insertionSort,
      List.orderedInsert]

/-- Appending a fresh key: when the key is absent the dict update appends
the new entry at the end. -/
lemma dictInsert_of_find_none (e : EdgeRecord) :
    ∀ m, dictFind (edgeKey e) m = none →
      dictInsert m e = m ++ [(edgeKey e, e)] := by
  intro m
  induction m with
  | nil => intro _; rfl
  | cons p rest ih =>
    intro h
    rw [dictFind] at h
    by_cases hpe : p.1 = edgeKey e
    · rw [if_pos hpe] at h
      exact absurd h (by simp)
    · rw [if_neg hpe] at h
      simp [dictInsert, hpe, ih h]

lemma dictFind_append (k : Int × Int) (m2 : List ((Int × Int) × EdgeRecord)) :
    ∀ m1, dictFind k (m1 ++ m2) =
      match dictFind k m1 with
      | some v => some v
      | none => dictFind k m2 := by
  intro m1
  induction m1 with
  | nil => simp [dictFind]
  | cons p rest ih =>
    by_cases hpk : p.1 = k <;> simp [dictFind, hpk, ih]

lemma foldl_dictInsert_of_nodup (l : List EdgeRecord) :
    ∀ m, (∀ e ∈ l, dictFind (edgeKey e) m = none) → (l.map edgeKey).Nodup →
      l.foldl dictInsert m = m ++ l.map (fun e => (edgeKey e, e)) := by
  induction l with
  | nil => intro m _ _; simp
  | cons e rest ih =>
    intro m hfind hnd
    have hnd' : (rest.map edgeKey).Nodup := (List.nodup_cons.1 hnd).2
    have henotin : edgeKey e ∉ rest.map edgeKey := (List.nodup_cons.1 hnd).1
    simp only [List.foldl_cons]
    rw [dictInsert_of_find_none e m (hfind e (List.mem_cons_self e rest))]
    rw [ih (m ++ [(edgeKey e, e)]) ?_ hnd']
    · simp
    intro f hf
    have hne : ¬ edgeKey e = edgeKey f := by
      intro hc
      exact henotin (hc ▸ List.mem_map_of_mem edgeKey hf)
    rw [dictFind_append]
    rw [hfind f (List.mem_cons_of_mem e hf)]
    simp [dictFind, hne]

/-- C8: deduplication is idempotent — applying `dedupe_edges` to its own
output returns that output unchanged, for every raw edge list. -/
theorem dedupe_idempotent (edges : List EdgeRecord) :
    dedupe_edges (dedupe_edges edges) = dedupe_edges edges := by
  obtain ⟨hkey, hsorted, hnd⟩ := dedupe_sorted_facts edges
  set sortedD := (edges.foldl dictInsert []).insertionSort entryLe with hs
  have hmapid :
      (sortedD.map Prod.snd).map (fun e => (edgeKey e, e)) = sortedD := by
    rw [List.map_map]
    have : ∀ q ∈ sortedD, ((fun e => (edgeKey e, e)) ∘ Prod.snd) q = id q := by
      intro q hq
      simp only [Function.comp_apply, id]
      exact Prod.ext (hkey q hq) rfl
    rw [List.map_congr_left this, List.map_id]
  have hkeysid : (sortedD.map Prod.snd).map edgeKey = sortedD.map Prod.fst := by
    rw [List.map_map]
    refine List.map_congr_left ?_
    intro q hq
    exact hkey q hq
  have hndl : ((sortedD.map Prod.snd).map edgeKey).Nodup := by
    rw [hkeysid]; exact hnd
  have hfold : (sortedD.map Prod.snd).foldl dictInsert [] = sortedD := by
    rw [foldl_dictInsert_of_nodup _ [] (fun _ _ => rfl) hndl]
    rw [List.nil_append]
    exact hmapid
  have hd : dedupe_edges edges = sortedD.map Prod.snd := by
    rw [dedupe_edges, ← hs]
  rw [hd, dedupe_edges, hfold, hsorted.insertionSort_eq]

/-! ### Node renumbering (`renumber_nodes_contiguous`, London script) -/

/-- `NodeRecord` of `convert_london.py`: raw id, British National Grid
coordinates, WGS84 coordinates. -/
structure NodeRecord where
  node_id : Int
  x : ℚ
  y : ℚ
  lat : ℚ
  lon : ℚ
deriving DecidableEq

/-- Total order on Python ints used by `sorted(used_ids)`. -/
def intLe (a b : Int) : Prop := a ≤ b

instance : DecidableRel intLe := fun a b => inferInstanceAs (Decidable (a ≤ b))

instance : IsTotal Int intLe := ⟨fun a b => le_total a b⟩

instance : IsTrans Int intLe := ⟨fun _ _ _ h1 h2 => le_trans h1 h2⟩

/-- `used_ids = {e.src for e in edges} | {e.dst for e in edges}`, modelled
as the deduplicated list of endpoint ids. -/
def usedIdsList (edges : List EdgeRecord) : List Int :=
  (edges.flatMap fun e => [e.src, e.dst]).dedup

/-- `sorted(used_ids)`: the referenced raw ids in ascending order. -/
def sortedUsed (edges : List EdgeRecord) : List Int :=
  (usedIdsList edges).insertionSort intLe

/-- `old_to_new = {old: new for new, old in enumerate(sorted(used_ids))}`:
the new id of a referenced raw id is its position in the ascending list. -/
def old_to_new (edges : List EdgeRecord) (old : Int) : Nat :=
  (sortedUsed edges).indexOf old

/-- Renumber nodes (`renumber_nodes_contiguous`, node loop): keep only
nodes whose raw id is referenced by an edge, re-key by the new id, and
rewrite the stored `node_id`. -/
def renumberNodes (nodes : List (Int × NodeRecord))
    (edges : List EdgeRecord) : List (Nat × NodeRecord) :=
  nodes.filterMap fun p =>
    if p.1 ∈ usedIdsList edges then
      some (old_to_new edges p.1,
        { p.2 with node_id := (old_to_new edges p.1 : Int) })
    else none

/-- Renumber edges (`renumber_nodes_contiguous`, edge loop): remap both
endpoints through `old_to_new`, keep the distance. -/
def renumberEdges (edges : List EdgeRecord) : List EdgeRecord :=
  edges.map fun e =>
    { src := (old_to_new edges e.src : Int),
      dst := (old_to_new edges e.dst : Int),
      distance := e.distance }

lemma sortedUsed_nodup (edges : List EdgeRecord) :
    (sortedUsed edges).Nodup :=
  (List.perm_insertionSort intLe _).nodup_iff.2 (List.nodup_dedup _)

lemma mem_sortedUsed (edges : List EdgeRecord) (a : Int) :
    a ∈ sortedUsed edges ↔ a ∈ usedIdsList edges :=
  (List.perm_insertionSort intLe _).mem_iff

lemma sortedUsed_pairwise_lt (edges : List EdgeRecord) :
    (sortedUsed edges).Pairwise (fun a b => a < b) := by
  have h1 : (sortedUsed edges).Pairwise intLe :=
    List.sorted_insertionSort intLe _
  have h2 : (sortedUsed edges).Pairwise (fun a b => a ≠ b) :=
    sortedUsed_nodup edges
  exact (h1.and h2).imp fun h => lt_of_le_of_ne h.1 h.2

lemma old_to_new_strictMono (edges : List EdgeRecord) {a b : Int}
    (ha : a ∈ usedIdsList edges) (hb : b ∈ usedIdsList edges) (hab : a < b) :
    old_to_new edges a < old_to_new edges b := by
  have ha' : a ∈ sortedUsed edges := (mem_sortedUsed edges a).2 ha
  have hb' : b ∈ sortedUsed edges := (mem_sortedUsed edges b).2 hb
  have hia : (sortedUsed edges).indexOf a < (sortedUsed edges).length :=
    List.indexOf_lt_length.2 ha'
  have hib : (sortedUsed edges).indexOf b < (sortedUsed edges).length :=
    List.indexOf_lt_length.2 hb'
  rcases lt_trichotomy ((sortedUsed edges).indexOf a)
    ((sortedUsed edges).indexOf b) with h | h | h
  · exact h
  · exfalso
    have : a = b := by
      have h1 := List.indexOf_get hia
      have h2 := List.indexOf_get hib
      rw [← h1, ← h2]
      exact congrArg _ (Fin.ext h)
    omega
  · exfalso
    have := List.pairwise_iff_getElem.1 (sortedUsed_pairwise_lt edges)
      _ _ hib hia h
    rw [show (sortedUsed edges)[(sortedUsed edges).indexOf b] =
        (sortedUsed edges).get ⟨_, hib⟩ from rfl, List.indexOf_get hib,
      show (sortedUsed edges)[(sortedUsed edges).indexOf a] =
        (sortedUsed edges).get ⟨_, hia⟩ from rfl, List.indexOf_get hia] at this
    omega

lemma renumberNodes_eq_filter (nodes : List (Int × NodeRecord))
    (edges : List EdgeRecord) :
    renumberNodes nodes edges =
      (nodes.filter (fun p => p.1 ∈ usedIdsList edges)).map
        (fun p => (old_to_new edges p.1,
          { p.2 with node_id := (old_to_new edges p.1 : Int) })) := by
  rw [renumberNodes]
  induction nodes with
  | nil => rfl
  | cons q rest ih =>
    by_cases h : q.1 ∈ usedIdsList edges <;>
      simp [List.filterMap_cons, h, ih, List.filter_cons]

lemma mem_usedIdsList (edges : List EdgeRecord) (a : Int) :
    a ∈ usedIdsList edges ↔ ∃ e ∈ edges, a = e.src ∨ a = e.dst := by
  rw [usedIdsList, List.mem_dedup, List.mem_flatMap]
  constructor
  · rintro ⟨e, he, hmem⟩
    simp at hmem
    exact ⟨e, he, hmem⟩
  · rintro ⟨e, he, hmem⟩
    exact ⟨e, he, by simp [hmem]⟩

lemma renumberNodes_length (nodes : List (Int × NodeRecord))
    (edges : List EdgeRecord)
    (h1 : ∀ e ∈ edges,
      e.src ∈ nodes.map Prod.fst ∧ e.dst ∈ nodes.map Prod.fst)
    (h2 : (nodes.map Prod.fst).Nodup) :
    (renumberNodes nodes edges).length = (sortedUsed edges).length := by
  have hsub : ∀ a ∈ usedIdsList edges, a ∈ nodes.map Prod.fst := by
    intro a ha
    obtain ⟨e, he, hmem⟩ := (mem_usedIdsList edges a).1 ha
    rcases hmem with h | h
    · exact h ▸ (h1 e he).1
    · exact h ▸ (h1 e he).2
  rw [renumberNodes_eq_filter, List.length_map, ← List.length_map _ Prod.fst]
  have hcomm : (nodes.filter (fun p => p.1 ∈ usedIdsList edges)).map Prod.fst
      = (nodes.map Prod.fst).filter (fun a => a ∈ usedIdsList edges) := by
    rw [List.filter_map]
    rfl
  rw [hcomm]
  have hperm : List.Perm
      ((nodes.map Prod.fst).filter (fun a => a ∈ usedIdsList edges))
      (usedIdsList edges) := by
    refine (List.perm_ext_iff_of_nodup (h2.filter _)
      (show (usedIdsList edges).Nodup from List.nodup_dedup _)).2 ?_
    intro a
    rw [List.mem_filter]
    constructor
    · intro h
      exact of_decide_eq_true h.2
    · intro h
      exact ⟨hsub a h, decide_eq_true h⟩
  rw [hperm.length_eq, sortedUsed,
    (List.perm_insertionSort intLe _).length_eq]

/-- C4: given that every edge endpoint has a node record and node ids are
unique, `renumber_nodes_contiguous` keeps exactly one node per referenced
raw id (dropping every never-referenced node), maps the referenced raw ids
onto `{0, ..., M-1}` strictly monotonically in raw-id order (hence
bijectively), rewrites both endpoints of every edge through that mapping,
and in the result no node key and no edge endpoint is `≥` the new node
count `M`. -/
theorem renumber_contract (nodes : List (Int × NodeRecord))
    (edges : List EdgeRecord)
    (h1 : ∀ e ∈ edges,
      e.src ∈ nodes.map Prod.fst ∧ e.dst ∈ nodes.map Prod.fst)
    (h2 : (nodes.map Prod.fst).Nodup) :
    (renumberNodes nodes edges =
      (nodes.filter (fun p => p.1 ∈ usedIdsList edges)).map
        (fun p => (old_to_new edges p.1,
          { p.2 with node_id := (old_to_new edges p.1 : Int) }))) ∧
    (∀ a b : Int, a ∈ usedIdsList edges → b ∈ usedIdsList edges → a < b →
      old_to_new edges a < old_to_new edges b) ∧
    (∀ a ∈ usedIdsList edges,
      old_to_new edges a < (renumberNodes nodes edges).length) ∧
    (∀ j : Nat, j < (renumberNodes nodes edges).length →
      ∃ a ∈ usedIdsList edges, old_to_new edges a = j) ∧
    (∀ q ∈ renumberNodes nodes edges,
      q.1 < (renumberNodes nodes edges).length) ∧
    (renumberEdges edges = edges.map (fun e =>
      { src := (old_to_new edges e.src : Int),
        dst := (old_to_new edges e.dst : Int),
        distance := e.distance })) ∧
    (∀ e ∈ renumberEdges edges,
      0 ≤ e.src ∧ e.src < ((renumberNodes nodes edges).length : Int) ∧
      0 ≤ e.dst ∧ e.dst < ((renumberNodes nodes edges).length : Int)) := by
  have hM := renumberNodes_length nodes edges h1 h2
  have hlt : ∀ a ∈ usedIdsList edges,
      old_to_new edges a < (renumberNodes nodes edges).length := by
    intro a ha
    rw [hM]
    exact List.indexOf_lt_length.2 ((mem_sortedUsed edges a).2 ha)
  refine ⟨renumberNodes_eq_filter nodes edges,
    fun a b ha hb hab => old_to_new_strictMono edges ha hb hab,
    hlt, ?_, ?_, rfl, ?_⟩
  · intro j hj
    rw [hM] at hj
    refine ⟨(sortedUsed edges).get ⟨j, hj⟩, ?_, ?_⟩
    · exact (mem_sortedUsed edges _).1 (List.get_mem _ _ _)
    · exact List.indexOf_getElem (sortedUsed_nodup edges) j hj
  · intro q hq
    rw [renumberNodes_eq_filter] at hq
    obtain ⟨p, hp, hpq⟩ := List.mem_map.1 hq
    have hp2 : p.1 ∈ usedIdsList edges := by
      have := (List.mem_filter.1 hp).2
      simpa using this
    rw [← hpq]
    exact hlt p.1 hp2
  · intro e he
    rw [renumberEdges] at he
    obtain ⟨f, hf, hfe⟩ := List.mem_map.1 he
    have hsrc : f.src ∈ usedIdsList edges :=
      (mem_usedIdsList edges f.src).2 ⟨f, hf, Or.inl rfl⟩
    have hdst : f.dst ∈ usedIdsList edges :=
      (mem_usedIdsList edges f.dst).2 ⟨f, hf, Or.inr rfl⟩
    have hs := hlt f.src hsrc
    have hd := hlt f.dst hdst
    rw [← hfe]
    refine ⟨Int.ofNat_nonneg _, ?_, Int.ofNat_nonneg _, ?_⟩
    · simpa using hs
    · simpa using hd

/-- Witness for `renumber_contract`: nodes with raw ids 5, 3, 7 and the
single edge (5, 3); node 7 is unreferenced and dropped, ids 3 and 5 map to
0 and 1. -/
theorem renumber_contract_witness :
    (∀ e ∈ [EdgeRecord.mk 5 3 1],
      e.src ∈ [((5 : Int), NodeRecord.mk 5 0 0 0 0), (3, NodeRecord.mk 3 0 0 0 0),
        (7, NodeRecord.mk 7 0 0 0 0)].map Prod.fst ∧
      e.dst ∈ [((5 : Int), NodeRecord.mk 5 0 0 0 0), (3, NodeRecord.mk 3 0 0 0 0),
        (7, NodeRecord.mk 7 0 0 0 0)].map Prod.fst) ∧
    (∀ e ∈ renumberEdges [EdgeRecord.mk 5 3 1],
      0 ≤ e.src ∧ e.src <
        ((renumberNodes [((5 : Int), NodeRecord.mk 5 0 0 0 0),
          (3, NodeRecord.mk 3 0 0 0 0), (7, NodeRecord.mk 7 0 0 0 0)]
          [EdgeRecord.mk 5 3 1]).length : Int) ∧
      0 ≤ e.dst ∧ e.dst <
        ((renumberNodes [((5 : Int), NodeRecord.mk 5 0 0 0 0),
          (3, NodeRecord.mk 3 0 0 0 0), (7, NodeRecord.mk 7 0 0 0 0)]
          [EdgeRecord.mk 5 3 1]).length : Int)) := by
  have h := renumber_contract
    [((5 : Int), NodeRecord.mk 5 0 0 0 0), (3, NodeRecord.mk 3 0 0 0 0),
      (7, NodeRecord.mk 7 0 0 0 0)]
    [EdgeRecord.mk 5 3 1] (by decide) (by decide)
  exact ⟨by decide, h.2.2.2.2.2.2⟩

/-! ### Validate-only canonicalization (`ensure_ids_contiguous`, California
script) -/

/-- `NodeRecord` of `convert_california.py` (each script declares its own
`NodeRecord` class; the London one is `NodeRecord` above). -/
structure CalNodeRecord where
  node_id : Int
  lat : ℚ
  lon : ℚ
deriving DecidableEq

/-- `node_ids = {n.node_id for n in nodes}` (set membership is modelled by
list membership). -/
def calNodeIds (nodes : List CalNodeRecord) : List Int :=
  nodes.map CalNodeRecord.node_id

/-- Python `max` over the id collection; `none` models the `ValueError`
Python raises on an empty collection. -/
def maxNodeId : List Int → Option Int
  | [] => none
  | a :: rest =>
    match maxNodeId rest with
    | none => some a
    | some m => some (max a m)

/-- `ensure_ids_contiguous` (`convert_california.py` lines 216-229):
collect `missing = [i for i in range(0, max(node_ids)+1) if i not in
node_ids]` and raise if any; raise if some edge endpoint is not a node id;
otherwise return.  The function only reads its arguments, so the success
value carries the two lists unchanged. -/
def ensure_ids_contiguous (nodes : List CalNodeRecord)
    (edges : List EdgeRecord) :
    Except String (List CalNodeRecord × List EdgeRecord) :=
  match maxNodeId (calNodeIds nodes) with
  | none => Except.error "max() arg is an empty sequence"
  | some mx =>
    if (List.range (mx + 1).toNat).any
        (fun i => ! decide ((i : Int) ∈ calNodeIds nodes)) then
      Except.error "Node ids are not contiguous from 0..N-1"
    else if (edges.flatMap (fun e => [e.src, e.dst])).any
        (fun a => ! decide (a ∈ calNodeIds nodes)) then
      Except.error "Edges reference unknown nodes"
    else Except.ok (nodes, edges)

lemma maxNodeId_ne_none (a : Int) (rest : List Int) :
    maxNodeId (a :: rest) ≠ none := by
  rw [maxNodeId]
  cases maxNodeId rest <;> simp

lemma maxNodeId_spec :
    ∀ (l : List Int) (mx : Int), maxNodeId l = some mx →
      mx ∈ l ∧ ∀ a ∈ l, a ≤ mx := by
  intro l
  induction l with
  | nil => intro mx h; cases h
  | cons a rest ih =>
    intro mx h
    rw [maxNodeId] at h
    cases hr : maxNodeId rest with
    | none =>
      rw [hr] at h
      cases rest with
      | nil =>
        injection h with h
        subst h
        simp
      | cons b rest2 => exact absurd hr (maxNodeId_ne_none b rest2)
    | some m =>
      rw [hr] at h
      injection h with h
      obtain ⟨hm, hbound⟩ := ih m hr
      constructor
      · rcases le_total m a with hma | ham
        · have : mx = a := by omega
          rw [this]
          simp
        · have : mx = m := by
            rw [← h]
            omega
          rw [this]
          exact List.mem_cons_of_mem a hm
      · intro b hb
        rcases List.mem_cons.1 hb with hb | hb
        · omega
        · have := hbound b hb
          omega

/-- C7: assuming node ids are nonnegative (the data model of the spec), the
validate-only check succeeds exactly when the node list is nonempty, the
node-id set is an initial segment `{0, ..., N-1}` for some `N`, and every
edge endpoint is a node id; it fails in particular on an empty node list
(Python `max` raises there); and on success it returns the node and edge
lists unchanged. -/
theorem validate_contract (nodes : List CalNodeRecord)
    (edges : List EdgeRecord)
    (hpos : ∀ n ∈ nodes, 0 ≤ n.node_id) :
    ((ensure_ids_contiguous nodes edges).isOk = true ↔
      (nodes ≠ [] ∧
       (∃ N : Nat, ∀ k : Int, k ∈ calNodeIds nodes ↔ 0 ≤ k ∧ k < N) ∧
       (∀ e ∈ edges,
         e.src ∈ calNodeIds nodes ∧ e.dst ∈ calNodeIds nodes))) ∧
    (nodes = [] → (ensure_ids_contiguous nodes edges).isOk = false) ∧
    (∀ ns es, ensure_ids_contiguous nodes edges = Except.ok (ns, es) →
      ns = nodes ∧ es = edges) := by
  have hidpos : ∀ k ∈ calNodeIds nodes, 0 ≤ k := by
    intro k hk
    obtain ⟨n, hn, hnk⟩ := List.mem_map.1 hk
    exact hnk ▸ hpos n hn
  refine ⟨?_, ?_, ?_⟩
  · rw [ensure_ids_contiguous]
    split
    next hmx =>
      simp only [Except.isOk, Except.toBool]
      constructor
      · intro h
        cases h
      · rintro ⟨hne, -, -⟩
        cases hns : nodes with
        | nil => exact absurd hns hne
        | cons n rest =>
          rw [hns, calNodeIds, List.map_cons] at hmx
          exact absurd hmx (maxNodeId_ne_none _ _)
    next mx hmx =>
      obtain ⟨hmem, hbound⟩ := maxNodeId_spec _ mx hmx
      have hmx0 : 0 ≤ mx := hidpos mx hmem
      split
      next hrange =>
        simp only [Except.isOk, Except.toBool]
        constructor
        · intro h
          cases h
        · rintro ⟨-, ⟨N, hN⟩, -⟩
          obtain ⟨i, hi, hnot⟩ := List.any_eq_true.1 hrange
          rw [List.mem_range] at hi
          simp only [Bool.not_eq_eq_eq_not, Bool.not_true,
            decide_eq_false_iff_not] at hnot
          have hmxN : (mx : Int) < N := ((hN mx).1 hmem).2
          have hilt : (i : Int) < (N : Int) := by
            have := Int.toNat_of_nonneg (by omega : (0:Int) ≤ mx + 1)
            omega
          exact (hnot ((hN (i : Int)).2 ⟨Int.ofNat_nonneg i, hilt⟩)).elim
      next hrange =>
        rw [Bool.not_eq_true] at hrange
        have hno : ¬ ∃ i ∈ List.range (mx + 1).toNat,
            (! decide ((i : Int) ∈ calNodeIds nodes)) = true := by
          intro hex
          have hx := List.any_eq_true.2 hex
          rw [hrange] at hx
          exact Bool.false_ne_true hx
        have hseg : ∀ k : Int, k ∈ calNodeIds nodes ↔
            0 ≤ k ∧ k < ((mx + 1).toNat : Nat) := by
          intro k
          constructor
          · intro hk
            have h0 := hidpos k hk
            have h1 := hbound k hk
            have := Int.toNat_of_nonneg (by omega : (0:Int) ≤ mx + 1)
            refine ⟨h0, by omega⟩
          · rintro ⟨h0, h1⟩
            have hk' : k.toNat ∈ List.range (mx + 1).toNat := by
              rw [List.mem_range]
              omega
            by_contra hknot
            refine hno ⟨k.toNat, hk', ?_⟩
            simp only [Bool.not_eq_eq_eq_not, Bool.not_true,
              decide_eq_false_iff_not]
            rw [Int.toNat_of_nonneg h0]
            exact hknot
        split
        next hedge =>
          simp only [Except.isOk, Except.toBool]
          constructor
          · intro h
            cases h
          · rintro ⟨-, -, hends⟩
            obtain ⟨a, ha, hnot⟩ := List.any_eq_true.1 hedge
            simp only [Bool.not_eq_eq_eq_not, Bool.not_true,
              decide_eq_false_iff_not] at hnot
            obtain ⟨e, he, hae⟩ := List.mem_flatMap.1 ha
            simp only [List.mem_cons, List.not_mem_nil, or_false] at hae
            rcases hae with hae | hae
            · exact (hnot (hae ▸ (hends e he).1)).elim
            · exact (hnot (hae ▸ (hends e he).2)).elim
        next hedge =>
          rw [Bool.not_eq_true] at hedge
          have hnoe : ¬ ∃ a ∈ edges.flatMap (fun e => [e.src, e.dst]),
              (! decide (a ∈ calNodeIds nodes)) = true := by
            intro hex
            have hx := List.any_eq_true.2 hex
            rw [hedge] at hx
            exact Bool.false_ne_true hx
          simp only [Except.isOk, Except.toBool, true_iff]
          refine ⟨?_, ⟨(mx + 1).toNat, hseg⟩, ?_⟩
          · intro hns
            rw [hns] at hmx
            cases hmx
          · intro e he
            constructor
            · by_contra hc
              refine hnoe ⟨e.src, List.mem_flatMap.2 ⟨e, he, by simp⟩, ?_⟩
              simp only [Bool.not_eq_eq_eq_not, Bool.not_true,
                decide_eq_false_iff_not]
              exact hc
            · by_contra hc
              refine hnoe ⟨e.dst, List.mem_flatMap.2 ⟨e, he, by simp⟩, ?_⟩
              simp only [Bool.not_eq_eq_eq_not, Bool.not_true,
                decide_eq_false_iff_not]
              exact hc
  · intro hns
    rw [hns, ensure_ids_contiguous]
    rfl
  · intro ns es h
    rw [ensure_ids_contiguous] at h
    split at h
    next => cases h
    next =>
      split at h
      next => cases h
      next =>
        split at h
        next => cases h
        next =>
          injection h with h
          injection h with h1 h2
          exact ⟨h1.symm, h2.symm⟩

/-- Witness for `validate_contract`: two nodes with ids 0, 1 and the edge
(0, 1) pass validation unchanged; the empty node list fails. -/
theorem validate_contract_witness :
    ((ensure_ids_contiguous
        [CalNodeRecord.mk 0 0 0, CalNodeRecord.mk 1 0 0]
        [EdgeRecord.mk 0 1 1]).isOk = true ↔
      ([CalNodeRecord.mk 0 0 0, CalNodeRecord.mk 1 0 0] ≠ [] ∧
       (∃ N : Nat, ∀ k : Int,
         k ∈ calNodeIds [CalNodeRecord.mk 0 0 0, CalNodeRecord.mk 1 0 0] ↔
           0 ≤ k ∧ k < N) ∧
       (∀ e ∈ [EdgeRecord.mk 0 1 1],
         e.src ∈ calNodeIds [CalNodeRecord.mk 0 0 0, CalNodeRecord.mk 1 0 0] ∧
         e.dst ∈ calNodeIds
           [CalNodeRecord.mk 0 0 0, CalNodeRecord.mk 1 0 0]))) ∧
    (ensure_ids_contiguous ([] : List CalNodeRecord)
      [EdgeRecord.mk 0 1 1]).isOk = false :=
  ⟨(validate_contract [CalNodeRecord.mk 0 0 0, CalNodeRecord.mk 1 0 0]
      [EdgeRecord.mk 0 1 1] (by decide)).1,
   (validate_contract ([] : List CalNodeRecord) [EdgeRecord.mk 0 1 1]
      (by decide)).2.1 rfl⟩

/-! ### Full edge-file synthesis (`write_edges`, both scripts) -/

/-- Abstract interface of the Python `random` module as `write_edges` uses
it: `seedFn` models `random.seed(n)` — the post-seed state depends only on
`n`, discarding the previous state; `uniformFn` models
`random.uniform(a, b)`; `shuffleFn` models `random.shuffle` on a 0/1
vector. -/
structure RandomModule (σ : Type) where
  seedFn : Nat → σ
  uniformFn : σ → ℚ → ℚ → ℚ × σ
  shuffleFn : σ → List Nat → List Nat × σ

/-- The pre-shuffle 0/1 vector
`[1 if i < len(edges) * pct // 100 else 0 for i in range(len(edges))]`. -/
def initFlags (n : Nat) (pct : Nat) : List Nat :=
  (List.range n).map (fun i => if i < n * pct / 100 then 1 else 0)

/-- One body line of the edges file:
`src dst travel_costs baseWidth rushWidth distance`. -/
structure EdgeLine where
  src : Int
  dst : Int
  travel_costs : List ℚ
  baseWidth : ℚ
  rushWidth : ℚ
  distance : ℚ

/-- The full content written by `write_edges`: the arrival-series header
line, the width-series header line, and one line per edge. -/
structure EdgesFile where
  arrivalLine : List Nat
  widthLine : List Nat
  lines : List EdgeLine

/-- `write_edges` of `convert_california.py` (lines 125-203): write the two
header lines; seed 42 and shuffle the score vector (scores are computed but
never written); seed 123 and shuffle the clearway vector; then per edge
draw a speed in [20, 25] mph, synthesize the travel costs, pick widths by
clearway status, and emit the line.  `_g0` is the ambient generator state
at call time; `random.seed(42)` replaces it unconditionally. -/
def cal_write_edges {σ : Type} (R : RandomModule σ) (_g0 : σ)
    (edges : List EdgeRecord) (base_width rush_width clearway_width : ℚ)
    (density clearway_pct : Nat) : EdgesFile :=
  let g1 := R.seedFn 42
  let _scores := R.shuffleFn g1 (initFlags edges.length density)
  let g2 := R.seedFn 123
  let cwP := R.shuffleFn g2 (initFlags edges.length clearway_pct)
  let is_clearway := cwP.1
  let loop := edges.foldl
    (fun (st : σ × Nat × List EdgeLine) e =>
      let spP := R.uniformFn st.1 20 25
      let base := calBaseCost e.distance spP.1
      let cf := costFold calTransition R.uniformFn base spP.2 ARRIVAL_SERIES
      let w := edgeWidths (is_clearway.getD st.2.1 0 != 0)
        base_width rush_width clearway_width
      (cf.g, st.2.1 + 1,
        st.2.2 ++ [⟨e.src, e.dst, cf.costs, w.1, w.2, e.distance⟩]))
    (cwP.2, 0, [])
  ⟨ARRIVAL_SERIES, WIDTH_SERIES, loop.2.2⟩

/-- `write_edges` of `convert_london.py` (lines 193-272): identical
structure, with a per-edge speed multiplier drawn in [0.8, 1.2] applied to
the configured speed, and the London rush transition. -/
def lon_write_edges {σ : Type} (R : RandomModule σ) (_g0 : σ)
    (edges : List EdgeRecord) (base_width rush_width clearway_width : ℚ)
    (density clearway_pct : Nat) (speed : ℚ) : EdgesFile :=
  let g1 := R.seedFn 42
  let _scores := R.shuffleFn g1 (initFlags edges.length density)
  let g2 := R.seedFn 123
  let cwP := R.shuffleFn g2 (initFlags edges.length clearway_pct)
  let is_clearway := cwP.1
  let loop := edges.foldl
    (fun (st : σ × Nat × List EdgeLine) e =>
      let spP := R.uniformFn st.1 (8/10) (12/10)
      let base := lonBaseCost e.distance speed spP.1
      let cf := costFold lonTransition R.uniformFn base spP.2 ARRIVAL_SERIES
      let w := edgeWidths (is_clearway.getD st.2.1 0 != 0)
        base_width rush_width clearway_width
      (cf.g, st.2.1 + 1,
        st.2.2 ++ [⟨e.src, e.dst, cf.costs, w.1, w.2, e.distance⟩]))
    (cwP.2, 0, [])
  ⟨ARRIVAL_SERIES, WIDTH_SERIES, loop.2.2⟩

/-- C10: edge serialization is deterministic given the inputs and the
pseudo-random algorithm: because `write_edges` reseeds the generator with
the fixed seeds 42 and then 123 before any draw, every draw it makes — the
score shuffle, the clearway shuffle, each per-edge speed draw and each
per-time-point multiplier draw — is a function of those seeds alone, so two
runs over the same edge list and configuration produce identical output
whatever the ambient generator states `g0`, `g0'` were, in both scripts. -/
theorem write_edges_deterministic {σ : Type} (R : RandomModule σ)
    (g0 g0' : σ) (edges : List EdgeRecord)
    (bw rushw cw : ℚ) (density pct : Nat) (speed : ℚ) :
    cal_write_edges R g0 edges bw rushw cw density pct =
      cal_write_edges R g0' edges bw rushw cw density pct ∧
    lon_write_edges R g0 edges bw rushw cw density pct speed =
      lon_write_edges R g0' edges bw rushw cw density pct speed :=
  ⟨rfl, rfl⟩

end FlexiRoute
